import Mathlib

/-!
Verification of the token-ordered pagination and response-normalization core of
tap-sherpaan (src/tap_sherpaan/pagination.py, client.py, streams.py).

The shallow embedding models Python values flowing through the tap as `Val`
(JSON-like nested data: the dicts produced by xmltodict, lists, scalars and
None).  Pure functions of the source are translated into Lean functions;
code that can raise (int() on a non-numeric string, attribute access on a
non-mapping) returns `Option`, with `none` standing for a propagated Python
exception.  One iteration of each pagination while-loop is embedded as a step
function returning a `StepOutcome`: `next` is the branch that persists the
cursor via `_increment_stream_state`/`_write_state_message` and re-enters the
loop, `stop` is a plain `break`, `stopMalformed` is a `break` preceded by a
`logger.error` report, and `raised` is an exception escaping the generator.
-/

namespace Sherpa

/-- A Python value as it appears in this tap: `None`, bools, ints, strings,
lists, and dicts (modelled as association lists of string keys, which is how
xmltodict produces them; keys are unique in real dicts). -/
inductive Val where
  | null : Val
  | bool : Bool → Val
  | int : Int → Val
  | str : String → Val
  | list : List Val → Val
  | obj : List (String × Val) → Val

/-! Structural equality on values (Python `==` for this domain). -/

mutual

def beqVal : Val → Val → Bool
  | .null, .null => true
  | .bool a, .bool b => a == b
  | .int a, .int b => a == b
  | .str a, .str b => a == b
  | .list xs, .list ys => beqValList xs ys
  | .obj a, .obj b => beqValEntries a b
  | _, _ => false

def beqValList : List Val → List Val → Bool
  | [], [] => true
  | x :: xs, y :: ys => beqVal x y && beqValList xs ys
  | _, _ => false

def beqValEntries : List (String × Val) → List (String × Val) → Bool
  | [], [] => true
  | (k, v) :: es, (k2, w) :: fs => k == k2 && beqVal v w && beqValEntries es fs
  | _, _ => false

end

instance : BEq Val := ⟨beqVal⟩

/-- Python truthiness for the values of this domain: `None`, `False`, `0`,
`""`, `[]` and `{}` are falsy. -/
def truthy : Val → Bool
  | .null => false
  | .bool b => b
  | .int n => n != 0
  | .str s => !s.isEmpty
  | .list xs => !xs.isEmpty
  | .obj kvs => !kvs.isEmpty

/-- `d.get(k, default)` on a Python value: succeeds on mappings, and `none`
models the `AttributeError` raised when `.get` is called on a non-mapping. -/
def pyGet (v : Val) (k : String) (d : Val) : Option Val :=
  match v with
  | .obj kvs => some ((kvs.lookup k).getD d)
  | _ => none

/-- `k in v` for the container types this code meets: key membership on
mappings, element membership on lists, substring test on strings; `none`
models the `TypeError` raised on other receivers. -/
def subChars (pat : List Char) : List Char → Bool
  | [] => pat.isEmpty
  | c :: rest => pat.isPrefixOf (c :: rest) || subChars pat rest

/-- Substring containment, Python's `pat in s` on strings. -/
def strContains (s pat : String) : Bool := subChars pat.data s.data

def pyContains (v : Val) (k : String) : Option Bool :=
  match v with
  | .obj kvs => some (kvs.lookup k).isSome
  | .list xs => some (xs.any fun x => match x with | .str s => s == k | _ => false)
  | .str s => some (strContains s k)
  | _ => none

/-- `d[k] = x` on a dict: replace the value at an existing key in place,
otherwise append the new key at the end (Python dict assignment order). -/
def setEntry : List (String × Val) → String → Val → List (String × Val)
  | [], k, x => [(k, x)]
  | (k', v') :: rest, k, x =>
      if k' = k then (k, x) :: rest else (k', v') :: setEntry rest k x

/-- `record[k] = x` where the record is a dict value. -/
def setVal (v : Val) (k : String) (x : Val) : Val :=
  match v with
  | .obj kvs => .obj (setEntry kvs k x)
  | other => other

/-- Whitespace accepted by `int()` / the JSON grammar. -/
def isWsChar (c : Char) : Bool := c = ' ' || c = '\t' || c = '\n' || c = '\r'

def dropWsEnds (l : List Char) : List Char :=
  ((l.dropWhile isWsChar).reverse.dropWhile isWsChar).reverse

/-- Fold a run of decimal digits onto an accumulator. -/
def digitsToNat : Nat → List Char → Nat
  | acc, [] => acc
  | acc, c :: t => digitsToNat (acc * 10 + (c.toNat - 48)) t

/-- A non-empty all-digit run, else failure. -/
def parseNatAll (l : List Char) : Option Nat :=
  if !l.isEmpty && l.all Char.isDigit then some (digitsToNat 0 l) else none

/-- Python `int(s)` on a string: optional surrounding whitespace, optional
sign, then decimal digits; anything else raises `ValueError` (`none`). -/
def parseIntStr (s : String) : Option Int :=
  match dropWsEnds s.data with
  | '-' :: ds => (parseNatAll ds).map (fun n => -(n : Int))
  | '+' :: ds => (parseNatAll ds).map (fun n => (n : Int))
  | ds => (parseNatAll ds).map (fun n => (n : Int))

/-- Python `int(x)` on the values this code feeds it: ints pass through,
bools become 0/1, strings are parsed; `None`, lists and dicts raise
(`TypeError`), a non-numeric string raises (`ValueError`). -/
def pyInt : Val → Option Int
  | .int n => some n
  | .bool b => some (if b then 1 else 0)
  | .str s => parseIntStr s
  | _ => none

/-! ### `clean_xml_artifacts`, pagination.py variant (lines 95-117)

Dicts: an empty dict becomes `None`; keys starting with `@` (XML namespace
attributes) are skipped; entries whose cleaned value is `None` are dropped;
a dict whose entries were all dropped becomes `None`.  Lists: elements are
cleaned in place (`None`s are kept, an empty list stays an empty list).
Scalars pass through. -/

/-- `key.startswith('@')`: the reserved marker of XML attribute keys. -/
def isAtKey (k : String) : Bool :=
  match k.data with
  | '@' :: _ => true
  | _ => false

mutual

def cleanP : Val → Val
  | .obj kvs =>
      if kvs.isEmpty then .null
      else
        let cleaned := cleanPEntries kvs
        if cleaned.isEmpty then .null else .obj cleaned
  | .list xs => .list (cleanPList xs)
  | v => v

def cleanPEntries : List (String × Val) → List (String × Val)
  | [] => []
  | (k, v) :: rest =>
      if isAtKey k then cleanPEntries rest
      else
        match cleanP v with
        | .null => cleanPEntries rest
        | cv => (k, cv) :: cleanPEntries rest

def cleanPList : List Val → List Val
  | [] => []
  | x :: t => cleanP x :: cleanPList t

end

/-! ### `clean_xml_artifacts`, client.py variant (lines 108-117)

Dicts: an empty dict becomes `None`; otherwise every entry is kept (keys are
not filtered) with its value cleaned.  Lists: elements that are `None`
before cleaning are dropped, the rest are cleaned.  Scalars pass through. -/

mutual

def cleanC : Val → Val
  | .obj kvs =>
      if kvs.isEmpty then .null else .obj (cleanCEntries kvs)
  | .list xs => .list (cleanCList xs)
  | v => v

def cleanCEntries : List (String × Val) → List (String × Val)
  | [] => []
  | (k, w) :: t => (k, cleanC w) :: cleanCEntries t

def cleanCList : List Val → List Val
  | [] => []
  | .null :: t => cleanCList t
  | x :: t => cleanC x :: cleanCList t

end

/-! ### `json.dumps` (default separators `", "` and `": "`)

The serializer the source uses for composite fields.  Modelled over printable
ASCII strings (the values here come from XML SOAP payloads); with
`ensure_ascii` Python would additionally escape characters outside that
range, which this model does not cover. -/

/-- Decimal digits of a natural number, most significant first, accumulated
right-to-left; the fuel only bounds the digit count (`n + 1` always
suffices) so the recursion is structural. -/
def natCharsAux : Nat → Nat → List Char → List Char
  | 0, _, acc => acc
  | fuel + 1, n, acc =>
      if n < 10 then Char.ofNat (n + 48) :: acc
      else natCharsAux fuel (n / 10) (Char.ofNat (n % 10 + 48) :: acc)

/-- Decimal digits of a natural number, most significant first. -/
def natChars (n : Nat) : List Char := natCharsAux (n + 1) n []

/-- `repr` of a Python int. -/
def intChars (i : Int) : List Char :=
  if i < 0 then '-' :: natChars (-i).toNat else natChars i.toNat

/-- JSON string escaping as `json.dumps` performs it on printable ASCII:
only `"` and `\` need a backslash. -/
def escChars : List Char → List Char
  | [] => []
  | c :: t =>
      if c = '"' then '\\' :: '"' :: escChars t
      else if c = '\\' then '\\' :: '\\' :: escChars t
      else c :: escChars t

/-- An object key with its `": "` separator. -/
def renderKey (k : String) : List Char :=
  '"' :: (escChars k.data ++ ['"', ':', ' '])

/-- The keyword literals of the JSON grammar. -/
def kwNull : List Char := ['n', 'u', 'l', 'l']

def kwTrue : List Char := ['t', 'r', 'u', 'e']

def kwFalse : List Char := ['f', 'a', 'l', 's', 'e']

mutual

def renderV : Val → List Char
  | .null => kwNull
  | .bool true => kwTrue
  | .bool false => kwFalse
  | .int n => intChars n
  | .str s => '"' :: (escChars s.data ++ ['"'])
  | .list xs => '[' :: (renderItems xs ++ [']'])
  | .obj kvs => '\x7b' :: (renderEntries kvs ++ ['\x7d'])

def renderItems : List Val → List Char
  | [] => []
  | x :: t => renderV x ++ renderITail t

def renderITail : List Val → List Char
  | [] => []
  | y :: t => ',' :: ' ' :: (renderV y ++ renderITail t)

def renderEntries : List (String × Val) → List Char
  | [] => []
  | (k, v) :: t => renderKey k ++ (renderV v ++ renderETail t)

def renderETail : List (String × Val) → List Char
  | [] => []
  | (k, v) :: t => ',' :: ' ' :: (renderKey k ++ (renderV v ++ renderETail t))

end

/-- `json.dumps(v)` as a string. -/
def dumps (v : Val) : String := String.mk (renderV v)

/-! ### `json.loads`

A recursive-descent parser for the JSON fragment `json.dumps` emits:
null/true/false, integers, strings with `\"` and `\\` escapes, arrays and
objects, with whitespace skipped between tokens.  (Python's `json.loads`
additionally accepts floats, `\uXXXX` escapes and rejects leading zeros;
those inputs never arise from `json.dumps` on this tap's values.)  The
`fuel` argument bounds nesting and is an implementation device only:
`loads` supplies more fuel than any input can need. -/

def skipWs : List Char → List Char
  | [] => []
  | c :: rest => if isWsChar c then skipWs rest else c :: rest

/-! Body of a JSON string after the opening quote: `parseStrChars` returns
the unescaped characters and the input after the closing quote; a backslash
defers to `parseStrEsc` for the escaped character. -/

mutual

def parseStrChars : List Char → Option (List Char × List Char)
  | [] => none
  | c :: rest =>
      if c = '"' then some ([], rest)
      else if c = '\\' then parseStrEsc rest
      else (parseStrChars rest).map fun (l, r) => (c :: l, r)

def parseStrEsc : List Char → Option (List Char × List Char)
  | [] => none
  | e :: rest' =>
      if e = '"' ∨ e = '\\' then
        (parseStrChars rest').map fun (l, r) => (e :: l, r)
      else none

end

/-- Maximal run of digits folded onto an accumulator, returning the rest. -/
def parseDigits : Nat → List Char → Nat × List Char
  | acc, [] => (acc, [])
  | acc, c :: rest =>
      if c.isDigit then parseDigits (acc * 10 + (c.toNat - 48)) rest
      else (acc, c :: rest)

/-- A number token: at least one digit. -/
def parseNum : List Char → Option (Nat × List Char)
  | [] => none
  | c :: rest =>
      if c.isDigit then some (parseDigits (c.toNat - 48) rest) else none

/-- Match an exact literal continuation (e.g. the `ull` of `null`). -/
def expectChars : List Char → List Char → Option (List Char)
  | [], rest => some rest
  | _ :: _, [] => none
  | e :: es, c :: rest => if c = e then expectChars es rest else none

mutual

def parseV : Nat → List Char → Option (Val × List Char)
  | 0, _ => none
  | Nat.succ f, cs =>
      match skipWs cs with
      | [] => none
      | c :: rest =>
          if c = 'n' then (expectChars ['u', 'l', 'l'] rest).map fun r => (.null, r)
          else if c = 't' then (expectChars ['r', 'u', 'e'] rest).map fun r => (.bool true, r)
          else if c = 'f' then (expectChars ['a', 'l', 's', 'e'] rest).map fun r => (.bool false, r)
          else if c = '"' then (parseStrChars rest).map fun (l, r) => (.str (String.mk l), r)
          else if c = '[' then parseArr f rest
          else if c = '\x7b' then parseObjB f rest
          else if c = '-' then (parseNum rest).map fun (n, r) => (.int (-(n : Int)), r)
          else (parseNum (c :: rest)).map fun (n, r) => (.int (n : Int), r)

def parseArr : Nat → List Char → Option (Val × List Char)
  | 0, _ => none
  | Nat.succ f, cs =>
      match skipWs cs with
      | [] => none
      | c :: rest =>
          if c = ']' then some (.list [], rest)
          else
            match parseV f (c :: rest) with
            | some (v, rest1) =>
                (parseArrTail f rest1).map fun (vs, r) => (.list (v :: vs), r)
            | none => none

def parseArrTail : Nat → List Char → Option (List Val × List Char)
  | 0, _ => none
  | Nat.succ f, cs =>
      match skipWs cs with
      | [] => none
      | c :: rest =>
          if c = ']' then some ([], rest)
          else if c = ',' then
            match parseV f rest with
            | some (v, rest1) =>
                (parseArrTail f rest1).map fun (vs, r) => (v :: vs, r)
            | none => none
          else none

def parseObjB : Nat → List Char → Option (Val × List Char)
  | 0, _ => none
  | Nat.succ f, cs =>
      match skipWs cs with
      | [] => none
      | c :: rest =>
          if c = '\x7d' then some (.obj [], rest)
          else if c = '"' then
            match parseStrChars rest with
            | some (k, r1) =>
                match skipWs r1 with
                | [] => none
                | d :: r2 =>
                    if d = ':' then
                      match parseV f r2 with
                      | some (v, r3) =>
                          (parseObjTail f r3).map fun (kvs, r) =>
                            (.obj ((String.mk k, v) :: kvs), r)
                      | none => none
                    else none
            | none => none
          else none

def parseObjTail : Nat → List Char → Option (List (String × Val) × List Char)
  | 0, _ => none
  | Nat.succ f, cs =>
      match skipWs cs with
      | [] => none
      | c :: rest =>
          if c = '\x7d' then some ([], rest)
          else if c = ',' then
            match skipWs rest with
            | [] => none
            | d :: rest' =>
                if d = '"' then
                  match parseStrChars rest' with
                  | some (k, r1) =>
                      match skipWs r1 with
                      | [] => none
                      | e :: r2 =>
                          if e = ':' then
                            match parseV f r2 with
                            | some (v, r3) =>
                                (parseObjTail f r3).map fun (kvs, r) =>
                                  ((String.mk k, v) :: kvs, r)
                            | none => none
                          else none
                  | none => none
                else none
          else none

end

/-- `json.loads(s)`: parse one value, then require only trailing whitespace
("Extra data" otherwise); any failure raises (`none`). -/
def loads (s : String) : Option Val :=
  match parseV (2 * s.data.length) s.data with
  | some (v, rest) => if (skipWs rest).isEmpty then some v else none
  | none => none

/-- Is the value a mapping or a sequence? -/
def isContainer : Val → Bool
  | .obj _ => true
  | .list _ => true
  | _ => false

/-! ### `PaginatedStream._process_nested_objects` (pagination.py 84-160)

The normalizer used by the custom-client pagination loop.  It walks the
top-level entries of an item: a dict value under the key `"ItemInformation"`
is unwrapped one level (its entries are lifted to the top, composite
sub-values serialized), any other dict or list value becomes
`json.dumps(clean_xml_artifacts(value))`, scalars pass through.  A new dict
is built (`processed`), the input is not mutated. -/

/-- `json.dumps(clean_xml_artifacts(v))`. -/
def jsonEnc (v : Val) : Val := .str (String.mk (renderV (cleanP v)))

/-- One assignment of the inner `for sub_key, sub_value in value.items()`
loop that lifts `ItemInformation` entries (pagination.py 143-149). -/
def liftEntry (acc : List (String × Val)) (skv : String × Val) : List (String × Val) :=
  match skv.2 with
  | .obj _ => setEntry acc skv.1 (jsonEnc skv.2)
  | .list _ => setEntry acc skv.1 (jsonEnc skv.2)
  | _ => setEntry acc skv.1 skv.2

/-- One assignment round of the `for key, value in item.items()` loop. -/
def pnoStep (processed : List (String × Val)) : String × Val → List (String × Val) :=
  fun (k, v) =>
    match v with
    | .obj sub =>
        if k = "ItemInformation" then sub.foldl liftEntry processed
        else setEntry processed k (jsonEnc v)
    | .list _ => setEntry processed k (jsonEnc v)
    | _ => setEntry processed k v

def pnoP (item : List (String × Val)) : List (String × Val) :=
  item.foldl pnoStep []

/-! ### `SherpaStream._process_nested_objects` (client.py 106-126)

The client-variant normalizer: clean the whole item with the client
`clean_xml_artifacts`, then serialize each remaining non-empty dict or list
value with `json.dumps`.  When the item cleans to `None` (an empty item
dict), the subsequent `.items()` access raises — modelled as `none`. -/

/-- The `processed[key] = json.dumps(value)` rewrite applied to each entry
of the cleaned item: non-empty dict or list values are serialized (without a
second cleaning — the item is already cleaned), everything else is kept. -/
def convC (p : String × Val) : String × Val :=
  if isContainer p.2 && truthy p.2
  then (p.1, Val.str (String.mk (renderV p.2)))
  else p

def pnoC (item : List (String × Val)) : Option (List (String × Val)) :=
  match cleanC (.obj item) with
  | .obj kvs => some (kvs.map convC)
  | _ => none

/-! ### Pagination loop steps

Each `while True:` page loop is embedded as a function from the current
token and the fetched response to the outcome of one iteration. -/

/-- Outcome of one iteration of a pagination loop.
`next emitted newToken`: the branch that calls `_increment_stream_state` and
`_write_state_message` (persisting `newToken`) and re-enters the loop;
`stop`: a plain `break` with no state write; `stopMalformed`: a `break`
preceded by a `logger.error` about the response shape; `raised`: an
exception propagating out of the generator. -/
inductive StepOutcome where
  | next (emitted : List Val) (newToken : Int) : StepOutcome
  | stop (emitted : List Val) : StepOutcome
  | stopMalformed (emitted : List Val) : StepOutcome
  | raised : StepOutcome

/-- The item-container walk of `get_records_with_token` (pagination.py
291-296): follow the dotted `response_path`, substituting `{}` when a part
is missing or the current value is not a mapping. -/
def extractPath : List String → Val → Val
  | [], v => v
  | p :: ps, .obj kvs => extractPath ps ((kvs.lookup p).getD (.obj []))
  | _ :: ps, _ => extractPath ps (.obj [])

/-- The per-item loop of `get_records_with_token` (pagination.py 306-318):
`int(item.get("Token", 0))` (raising on non-mappings and non-numeric
tokens), running maximum, then the raw item is emitted (with
`response_time` attached) when truthy.  Returns the emitted records and the
final `highest_token`. -/
def processItemsTok (rt : Val) : Int → List Val → Option (List Val × Int)
  | highest, [] => some ([], highest)
  | highest, item :: rest =>
      match pyGet item "Token" (.int 0) with
      | none => none
      | some tv =>
          match pyInt tv with
          | none => none
          | some t =>
              let highest' := if t > highest then t else highest
              match processItemsTok rt highest' rest with
              | none => none
              | some (ems, h) =>
                  some ((if truthy item then [setVal item "response_time" rt] else []) ++ ems, h)

/-- One iteration of `get_records_with_token` (pagination.py 284-330).
Note the update condition is `highest_token > 0`, not
`highest_token > last_token`: the branch that persists state and re-enters
the loop is taken whenever the running maximum is positive, even when no
item advanced it. -/
def tokenPageStep (path : List String) (lastToken : Int) (response : Val) : StepOutcome :=
  match pyGet response "ResponseTime" (.int 0) with
  | none => .raised
  | some rt =>
      let items := extractPath path response
      if !truthy items then .stop []
      else
        let itemsL := match items with | .list xs => xs | _ => ([] : List Val)
        match processItemsTok rt lastToken itemsL with
        | none => .raised
        | some (ems, highest) =>
            if highest > 0 then .next ems highest else .stop ems

/-- `if not isinstance(items, list): items = [items]`. -/
def listify (v : Val) : List Val :=
  match v with
  | .list xs => xs
  | x => [x]

/-- The `possible_keys` scan of `get_records_with_custom_client_method`
(pagination.py 564-573): first present key wins, its value listified. -/
def scanPossible (rkvs : List (String × Val)) : List String → Option (List Val)
  | [] => none
  | k :: ks =>
      match rkvs.lookup k with
      | some x => some (listify x)
      | none => scanPossible rkvs ks

/-- Item extraction of `get_records_with_custom_client_method`
(pagination.py 556-589) given `result`: a dict is probed for `items_key`,
then for the hard-coded `possible_keys`, then treated as a single item when
it carries one of the entity-code keys; a list is used directly; any other
shape is a logged error that breaks the loop (`none`). -/
def customItems (itemsKey : String) (result : Val) : Option (List Val) :=
  match result with
  | .obj rkvs =>
      match rkvs.lookup itemsKey with
      | some x => some (listify x)
      | none =>
          let items := (scanPossible rkvs
            ["ItemCodeTokenItemInformation", "ItemCodeTokenStock",
             "ItemCodeTokenSupplier", "ResponseValue"]).getD []
          if items.isEmpty then
            if (rkvs.lookup "SupplierCode").isSome
                || (rkvs.lookup "ItemCode").isSome
                || (rkvs.lookup "ClientCode").isSome
            then some [result]
            else none
          else some items
  | .list xs => some xs
  | _ => none

/-- The per-item loop of `get_records_with_custom_client_method`
(pagination.py 607-624): non-mapping items are logged and skipped,
`int(item.get("Token", 0))` can raise, the item is normalized with the
pagination `_process_nested_objects` and emitted when truthy. -/
def processItemsCustom (rt : Val) : Int → List Val → Option (List Val × Int)
  | highest, [] => some ([], highest)
  | highest, item :: rest =>
      match item with
      | .obj kvs =>
          match pyInt ((kvs.lookup "Token").getD (.int 0)) with
          | none => none
          | some t =>
              let highest' := if t > highest then t else highest
              let record := Val.obj (pnoP kvs)
              match processItemsCustom rt highest' rest with
              | none => none
              | some (ems, h) =>
                  some ((if truthy record then [setVal record "response_time" rt] else []) ++ ems, h)
      | _ => processItemsCustom rt highest rest

/-- One iteration of `get_records_with_custom_client_method`
(pagination.py 467-635) on an already-parsed (non-`raw_response`) response
dict.  The update condition here is `highest_token > int(token)`: a page
that advances no token breaks the loop without a state write.  Subscripting
a non-mapping response raises (`.raised`). -/
def customPageStep (itemsKey : String) (token : Int) (response : Val) : StepOutcome :=
  if !truthy response then .stop []
  else
    match pyContains response "ResponseValue" with
    | none => .raised
    | some false => .stopMalformed []
    | some true =>
        match response with
        | .obj rkvs =>
            let result := (rkvs.lookup "ResponseValue").getD .null
            if !truthy result then .stop []
            else
              match customItems itemsKey result with
              | none => .stopMalformed []
              | some items =>
                  if items.isEmpty then .stop []
                  else
                    let rt := (rkvs.lookup "ResponseTime").getD (.int 0)
                    match processItemsCustom rt token items with
                    | none => .raised
                    | some (ems, highest) =>
                        if highest > token then .next ems highest else .stop ems
        | _ => .raised

/-- The per-item loop of `get_records_with_token_pagination`
(client.py 286-301): non-mapping items are skipped, the client
`_process_nested_objects` is applied (which raises on an empty item dict),
records are emitted when truthy. -/
def processItemsClient (rt : Val) : Int → List Val → Option (List Val × Int)
  | highest, [] => some ([], highest)
  | highest, item :: rest =>
      match item with
      | .obj kvs =>
          match pyInt ((kvs.lookup "Token").getD (.int 0)) with
          | none => none
          | some t =>
              let highest' := if t > highest then t else highest
              match pnoC kvs with
              | none => none
              | some pkvs =>
                  let record := Val.obj pkvs
                  match processItemsClient rt highest' rest with
                  | none => none
                  | some (ems, h) =>
                      some ((if truthy record then [setVal record "response_time" rt] else []) ++ ems, h)
      | _ => processItemsClient rt highest rest

/-- One iteration of `get_records_with_token_pagination` (client.py
248-312): items under `items_key` with a `ResponseValue` fallback, then the
shared highest-token fold; the loop persists state and continues only when
`highest_token > int(token)`, otherwise it breaks with no state write. -/
def clientPageStep (itemsKey : String) (token : Int) (response : Val) : StepOutcome :=
  match response with
  | .obj rkvs =>
      let items0 := (rkvs.lookup itemsKey).getD (.list [])
      let items1 :=
        if !truthy items0 then
          match rkvs.lookup "ResponseValue" with
          | some (.obj rvk) => ((rvk.lookup itemsKey).getD items0)
          | some (.list xs) => .list xs
          | _ => items0
        else items0
      if !truthy items1 then .stop []
      else
        let itemsL := listify items1
        if itemsL.isEmpty then .stop []
        else
          let rt := (rkvs.lookup "ResponseTime").getD (.int 0)
          match processItemsClient rt token itemsL with
          | none => .raised
          | some (ems, highest) =>
              if highest > token then .next ems highest else .stop ems
  | _ => .raised

/-! ### `SherpaStream._parse_soap_response` (client.py 186-220)

The whole body sits in a `try`/`except` that returns `{}` on any failure,
so the parser never raises to its caller: `none` input models `xmltodict`
raising on malformed XML, and the navigation itself returns `{}` when no
recognizable response element is found. -/

/-- The `for key, value in soap_body.items()` search: a key containing
`"Response"` whose dict value holds `key.replace("Response", "Result")`. -/
def findResponseData : List (String × Val) → Option Val
  | [] => none
  | (k, v) :: rest =>
      match v with
      | .obj vkvs =>
          if strContains k "Response" then
            match vkvs.lookup (k.replace "Response" "Result") with
            | some rd => some rd
            | none => findResponseData rest
          else findResponseData rest
      | _ => findResponseData rest

/-- The fallback search for a `ResponseValue` entry in any dict body value. -/
def fallbackRV : List (String × Val) → Option Val
  | [] => none
  | (_, v) :: rest =>
      match v with
      | .obj vkvs =>
          match vkvs.lookup "ResponseValue" with
          | some rv => some rv
          | none => fallbackRV rest
      | _ => fallbackRV rest

/-- The navigation inside the `try`: `none` models an exception reaching the
`except` handler (e.g. `.get` or `.items()` on a non-mapping). -/
def soapNav (xmlDict : Val) : Option Val :=
  match pyGet xmlDict "soap:Envelope" (.obj []) with
  | none => none
  | some env =>
      match pyGet env "soap:Body" (.obj []) with
      | none => none
      | some (.obj bkvs) =>
          some (match findResponseData bkvs with
            | some rd => if truthy rd then rd else (fallbackRV bkvs).getD (.obj [])
            | none => (fallbackRV bkvs).getD (.obj []))
      | some _ => none

/-- `_parse_soap_response`: the input is the outcome of `xmltodict.parse`
(`none` when it raised on malformed XML); every failure path yields `{}`. -/
def parseSoapResponse (parsed : Option Val) : Val :=
  match parsed with
  | none => .obj []
  | some xmlDict => (soapNav xmlDict).getD (.obj [])

/-! ### The retry decorator (pagination.py 198-201, client.py 164-167)

`@retry(stop=stop_after_attempt(3), wait=wait_exponential(multiplier=1,
min=4, max=10))` from tenacity: it retries on *any* exception — there is no
retry classification in either `_make_request` or `_make_soap_request`. -/

/-- The exception classes the spec's taxonomy distinguishes. -/
inductive SoapError where
  | transientNetwork : SoapError
  | authFailure : SoapError
  | malformedRequest : SoapError

/-- `wait_exponential(multiplier=1, min=4, max=10)`: the sleep before the
retry that follows failed attempt `n`, clamped into `[4, 10]`. -/
def retryWait (n : Nat) : Nat := min 10 (max 4 (2 ^ n))

/-- `stop_after_attempt`-style driver: run attempt `attempt`; on an
exception, retry while tries remain, else re-raise the last error.  `f n`
is the outcome the wrapped call would produce on its `n`-th invocation. -/
def retryCall (f : Nat → Except SoapError Val) : Nat → Nat → Except SoapError Val
  | attempt, 0 => f attempt
  | attempt, r + 1 =>
      match f attempt with
      | .ok v => .ok v
      | .error _ => retryCall f (attempt + 1) r

/-- `_make_request` / `_make_soap_request` under the decorator: first
attempt plus at most two retries. -/
def makeRequest (f : Nat → Except SoapError Val) : Except SoapError Val :=
  retryCall f 1 2

/-! ### `ChangedPurchasesStream.get_child_context` (streams.py 380-391)

`_unique_order_numbers = set()` is a *class attribute* (streams.py 353):
every instance of the stream class in the process shares the same set, and
it is never cleared between replication runs. -/

/-- One `get_child_context` call threading the shared seen-set. -/
def getChildContext (seen : List Val) (record : List (String × Val)) :
    Option Val × List Val :=
  let pn := (record.lookup "OrderNumber").getD .null
  if !truthy pn then (none, seen)
  else if seen.contains pn then (none, seen)
  else (some (.obj [("purchase_number", pn)]), pn :: seen)

/-- The contexts produced for a sequence of parent records, threading the
seen-set (which, being class-level, also threads across runs). -/
def emitChildContexts (seen : List Val) :
    List (List (String × Val)) → List (Option Val) × List Val
  | [] => ([], seen)
  | r :: rs =>
      let p := getChildContext seen r
      let q := emitChildContexts p.2 rs
      (p.1 :: q.1, q.2)

/-- Cursor value after one loop iteration: only the `next` branch persists
and adopts a new token; every `break`/raise leaves the stored cursor as it
was. -/
def cursorAfter (tok : Int) : StepOutcome → Int
  | .next _ t => t
  | _ => tok

/-- `max` fold seeded at the current token, as all three loops compute it. -/
def foldMax : Int → List Int → Int
  | a, [] => a
  | a, t :: ts => foldMax (if t > a then t else a) ts

/-- The token an item contributes: `int(item.get("Token", 0))`. -/
def itemToken (v : Val) : Option Int :=
  match v with
  | .obj kvs => pyInt ((kvs.lookup "Token").getD (.int 0))
  | _ => none

/-- Tokens of a page, when every item is a mapping with a parseable token. -/
def itemTokens : List Val → Option (List Int)
  | [] => some []
  | v :: vs =>
      match itemToken v, itemTokens vs with
      | some t, some ts => some (t :: ts)
      | _, _ => none

/-! ### Helper lemmas -/

theorem foldMax_le_of_all {ts : List Int} : ∀ {a : Int}, (∀ t ∈ ts, t ≤ a) → foldMax a ts = a := by
  induction ts with
  | nil => intro a _; rfl
  | cons t ts ih =>
      intro a h
      have ht : t ≤ a := h t (List.mem_cons_self t ts)
      have : ¬ t > a := not_lt.mpr ht
      simp only [foldMax, if_neg this]
      exact ih fun x hx => h x (List.mem_cons_of_mem t hx)

theorem le_foldMax (ts : List Int) : ∀ a : Int, a ≤ foldMax a ts := by
  induction ts with
  | nil => intro a; exact le_refl a
  | cons t ts ih =>
      intro a
      refine le_trans ?_ (ih (if t > a then t else a))
      by_cases h : t > a
      · simp [h, le_of_lt h]
      · simp [h]

theorem processItemsCustom_tokens {its : List Val} {ts : List Int} :
    itemTokens its = some ts → ∀ (rt : Val) (h : Int),
    ∃ ems, processItemsCustom rt h its = some (ems, foldMax h ts) := by
  induction its generalizing ts with
  | nil =>
      intro hts rt h
      cases hts
      exact ⟨[], rfl⟩
  | cons v vs ih =>
      intro hts rt h
      cases hv : itemToken v with
      | none => simp [itemTokens, hv] at hts
      | some t =>
          cases hvs : itemTokens vs with
          | none => simp [itemTokens, hv, hvs] at hts
          | some ts' =>
              have hts' : ts = t :: ts' := by
                simp [itemTokens, hv, hvs] at hts
                exact hts.symm
              cases v with
              | obj kvs =>
                  have hpy : pyInt ((kvs.lookup "Token").getD (.int 0)) = some t := by
                    simpa [itemToken] using hv
                  obtain ⟨ems, hems⟩ := ih hvs rt (if t > h then t else h)
                  refine ⟨(if truthy (Val.obj (pnoP kvs)) then
                    [setVal (Val.obj (pnoP kvs)) "response_time" rt] else []) ++ ems, ?_⟩
                  subst hts'
                  simp only [processItemsCustom, hpy, hems]
                  rfl
              | null => simp [itemToken] at hv
              | bool b => simp [itemToken] at hv
              | int n => simp [itemToken] at hv
              | str s => simp [itemToken] at hv
              | list xs => simp [itemToken] at hv

theorem processItemsTok_tokens {its : List Val} {ts : List Int} :
    itemTokens its = some ts → ∀ (rt : Val) (h : Int),
    ∃ ems, processItemsTok rt h its = some (ems, foldMax h ts) := by
  induction its generalizing ts with
  | nil =>
      intro hts rt h
      cases hts
      exact ⟨[], rfl⟩
  | cons v vs ih =>
      intro hts rt h
      cases hv : itemToken v with
      | none => simp [itemTokens, hv] at hts
      | some t =>
          cases hvs : itemTokens vs with
          | none => simp [itemTokens, hv, hvs] at hts
          | some ts' =>
              have hts' : ts = t :: ts' := by
                simp [itemTokens, hv, hvs] at hts
                exact hts.symm
              cases v with
              | obj kvs =>
                  have hpy : pyInt ((kvs.lookup "Token").getD (.int 0)) = some t := by
                    simpa [itemToken] using hv
                  obtain ⟨ems, hems⟩ := ih hvs rt (if t > h then t else h)
                  refine ⟨(if truthy (Val.obj kvs) then
                    [setVal (Val.obj kvs) "response_time" rt] else []) ++ ems, ?_⟩
                  subst hts'
                  simp only [processItemsTok, pyGet, hpy, hems]
                  rfl
              | null => simp [itemToken] at hv
              | bool b => simp [itemToken] at hv
              | int n => simp [itemToken] at hv
              | str s => simp [itemToken] at hv
              | list xs => simp [itemToken] at hv

theorem pnoC_of_ne_nil {kvs : List (String × Val)} (h : kvs ≠ []) :
    ∃ out, pnoC kvs = some out := by
  cases kvs with
  | nil => exact absurd rfl h
  | cons e rest =>
      exact ⟨(cleanCEntries (e :: rest)).map convC, by simp [pnoC, cleanC]⟩

theorem processItemsClient_tokens {its : List Val} {ts : List Int} :
    itemTokens its = some ts →
    (∀ v ∈ its, ∀ kvs, v = Val.obj kvs → kvs ≠ []) →
    ∀ (rt : Val) (h : Int),
    ∃ ems, processItemsClient rt h its = some (ems, foldMax h ts) := by
  induction its generalizing ts with
  | nil =>
      intro hts _ rt h
      cases hts
      exact ⟨[], rfl⟩
  | cons v vs ih =>
      intro hts hne rt h
      cases hv : itemToken v with
      | none => simp [itemTokens, hv] at hts
      | some t =>
          cases hvs : itemTokens vs with
          | none => simp [itemTokens, hv, hvs] at hts
          | some ts' =>
              have hts' : ts = t :: ts' := by
                simp [itemTokens, hv, hvs] at hts
                exact hts.symm
              cases v with
              | obj kvs =>
                  have hpy : pyInt ((kvs.lookup "Token").getD (.int 0)) = some t := by
                    simpa [itemToken] using hv
                  have hkne : kvs ≠ [] :=
                    hne (Val.obj kvs) (List.mem_cons_self _ _) kvs rfl
                  obtain ⟨out, hout⟩ := pnoC_of_ne_nil hkne
                  obtain ⟨ems, hems⟩ := ih hvs
                    (fun w hw => hne w (List.mem_cons_of_mem _ hw)) rt (if t > h then t else h)
                  refine ⟨(if truthy (Val.obj out) then
                    [setVal (Val.obj out) "response_time" rt] else []) ++ ems, ?_⟩
                  subst hts'
                  simp only [processItemsClient, hpy, hout, hems]
                  rfl
              | null => simp [itemToken] at hv
              | bool b => simp [itemToken] at hv
              | int n => simp [itemToken] at hv
              | str s => simp [itemToken] at hv
              | list xs => simp [itemToken] at hv

/-! ### Claim theorems -/

/-- Claim C1, counterexample.  In `get_records_with_token` (pagination.py
306-330) a non-empty page whose single item carries token 3 ≤ cursor 5 does
*not* stop the loop: the update condition `highest_token > 0` holds, so the
iteration ends in the `next` branch — the unchanged cursor 5 is written via
`_increment_stream_state`/`_write_state_message` and the loop re-enters with
the same token, refetching forever on a deterministic server, contrary to
the claimed no-progress termination. -/
theorem c1_token_loop_continues_on_no_progress :
    tokenPageStep ["Items"] 5
      (Val.obj [("Items", Val.list [Val.obj [("Token", Val.int 3)]])]) =
    StepOutcome.next [Val.obj [("Token", Val.int 3), ("response_time", Val.int 0)]] 5 := rfl

/-- Claim C1, amended.  In `get_records_with_custom_client_method`
(pagination.py 599-635) the update condition is `highest_token > int(token)`,
so a non-empty page all of whose items carry tokens ≤ the current cursor
ends the iteration in the plain `break` branch: the page's records are
emitted, nothing is raised, and no state write occurs. -/
theorem c1_custom_loop_stops_on_no_progress
    (itemsKey : String) (tok : Int) (its : List Val) (ts : List Int)
    (hne : its ≠ []) (hts : itemTokens its = some ts) (hle : ∀ t ∈ ts, t ≤ tok) :
    ∃ ems, customPageStep itemsKey tok
      (Val.obj [("ResponseValue", Val.obj [(itemsKey, Val.list its)])]) =
      StepOutcome.stop ems := by
  obtain ⟨ems, hems⟩ := processItemsCustom_tokens hts (Val.int 0) tok
  rw [foldMax_le_of_all hle] at hems
  refine ⟨ems, ?_⟩
  cases its with
  | nil => exact absurd rfl hne
  | cons i ri =>
      simp only [customPageStep, truthy, pyContains, List.lookup, customItems, listify,
        Option.getD, Option.isSome] at hems ⊢
      simp [hems]

/-- Claim C1, witness for the amended theorem at a concrete page: cursor 5,
one item with token 3. -/
theorem c1_custom_loop_stops_on_no_progress_witness :
    ([Val.obj [("Token", Val.int 3)]] ≠ ([] : List Val))
    ∧ ∃ ems, customPageStep "ItemStockToken" 5
        (Val.obj [("ResponseValue",
          Val.obj [("ItemStockToken", Val.list [Val.obj [("Token", Val.int 3)]])])]) =
        StepOutcome.stop ems :=
  ⟨by simp, c1_custom_loop_stops_on_no_progress "ItemStockToken" 5
    [Val.obj [("Token", Val.int 3)]] [3] (by simp) rfl (by decide)⟩

/-- Claim C2 (confirmed).  For a page of items with parseable tokens `ts`,
one iteration of `get_records_with_token` (pagination.py) and of
`get_records_with_token_pagination` (client.py) leaves the stored cursor at
exactly `max(cursor_before, max ts)` — the fold seeded at the current
cursor — and therefore never below `cursor_before`; it is never incremented
by the item count. -/
theorem c2_cursor_is_max_of_before_and_tokens
    (tok : Int) (its : List Val) (ts : List Int)
    (h1 : 1 ≤ tok) (hts : itemTokens its = some ts)
    (hobj : ∀ v ∈ its, ∀ kvs, v = Val.obj kvs → kvs ≠ []) :
    cursorAfter tok (tokenPageStep ["Items"] tok (Val.obj [("Items", Val.list its)]))
      = foldMax tok ts
    ∧ cursorAfter tok (clientPageStep "Items" tok (Val.obj [("Items", Val.list its)]))
      = foldMax tok ts
    ∧ tok ≤ foldMax tok ts := by
  refine ⟨?_, ?_, le_foldMax ts tok⟩
  · cases its with
    | nil =>
        cases hts
        rfl
    | cons i ri =>
        obtain ⟨ems, hems⟩ := processItemsTok_tokens hts (Val.int 0) tok
        have hpos : foldMax tok ts > 0 := lt_of_lt_of_le h1 (le_foldMax ts tok)
        simp only [tokenPageStep, pyGet, extractPath, List.lookup, truthy,
          Option.getD] at hems ⊢
        simp [hems, hpos, cursorAfter]
  · cases its with
    | nil =>
        cases hts
        rfl
    | cons i ri =>
        obtain ⟨ems, hems⟩ := processItemsClient_tokens hts hobj (Val.int 0) tok
        simp only [clientPageStep, List.lookup, truthy, listify, Option.getD] at hems ⊢
        by_cases hgt : foldMax tok ts > tok
        · simp [hems, hgt, cursorAfter]
        · have hle2 : foldMax tok ts ≤ tok := le_of_not_lt hgt
          have hge2 : tok ≤ foldMax tok ts := le_foldMax ts tok
          simp [hems, hgt, cursorAfter]
          omega

/-- Claim C2, witness: cursor 5, page with tokens 7 and 3. -/
theorem c2_cursor_is_max_witness :
    cursorAfter 5 (tokenPageStep ["Items"] 5
      (Val.obj [("Items", Val.list [Val.obj [("Token", Val.int 7)],
        Val.obj [("Token", Val.int 3)]])])) = foldMax 5 [7, 3]
    ∧ cursorAfter 5 (clientPageStep "Items" 5
      (Val.obj [("Items", Val.list [Val.obj [("Token", Val.int 7)],
        Val.obj [("Token", Val.int 3)]])])) = foldMax 5 [7, 3]
    ∧ (5 : Int) ≤ foldMax 5 [7, 3] :=
  c2_cursor_is_max_of_before_and_tokens 5
    [Val.obj [("Token", Val.int 7)], Val.obj [("Token", Val.int 3)]] [7, 3]
    (by decide) rfl
    (by intro v hv kvs hkv
        subst hkv
        simp only [List.mem_cons, List.not_mem_nil, or_false] at hv
        rcases hv with h | h <;>
          · injection h with h'
            subst h'
            simp)

/-- A one-page replication run of `changed_purchases` whose single record
carries `OrderNumber` "P100". -/
def purchaseRun : List (List (String × Val)) := [[("OrderNumber", Val.str "P100")]]

/-- Claim C3 (code bug).  `_unique_order_numbers = set()` is a class
attribute (streams.py 352-353), so the deduplication set persists across
replication runs of the process.  A first run over `purchaseRun` emits the
detail-fetch context for "P100"; a second run, which per the claim owns a
fresh per-run set and must emit the key exactly once, receives the set left
behind by the first run and emits nothing. -/
theorem c3_dedup_set_shared_across_runs :
    (emitChildContexts [] purchaseRun).1 =
      [some (Val.obj [("purchase_number", Val.str "P100")])]
    ∧ (emitChildContexts (emitChildContexts [] purchaseRun).2 purchaseRun).1 = [none] :=
  ⟨rfl, rfl⟩

/-- The attempt sequence of a fetch that fails with an authentication error
once and then succeeds. -/
def authThenOk (k : Nat) : Except SoapError Val :=
  if k = 1 then .error .authFailure else .ok (.int 42)

/-- Claim C4, counterexample.  The tenacity decorator on `_make_request` /
`_make_soap_request` carries no `retry=` classifier, so it retries *every*
exception: an authentication failure on the first attempt is retried and the
call succeeds on the second attempt, instead of propagating immediately as
the claim requires. -/
theorem c4_auth_error_is_retried :
    makeRequest authThenOk = Except.ok (Val.int 42)
    ∧ makeRequest authThenOk ≠ Except.error SoapError.authFailure := by
  constructor
  · rfl
  · intro h
    rw [show makeRequest authThenOk = Except.ok (Val.int 42) from rfl] at h
    cases h

/-- Claim C4, amended.  The wrapper makes up to 3 attempts of the single
fetch and returns the first success, else the third attempt's error — with
no classification, every exception kind (auth included) is retried the same
way — and each backoff wait is clamped between 4 and 10 seconds. -/
theorem c4_retry_uniform_three_attempts :
    ∀ f : Nat → Except SoapError Val,
    makeRequest f = (match f 1 with
      | .ok v => .ok v
      | .error _ => match f 2 with
        | .ok v => .ok v
        | .error _ => f 3)
    ∧ (∀ n, 4 ≤ retryWait n ∧ retryWait n ≤ 10) := by
  intro f
  constructor
  · show retryCall f 1 2 = _
    cases h1 : f 1 with
    | ok v => simp [retryCall, h1]
    | error e =>
        cases h2 : f 2 with
        | ok v => simp [retryCall, h1, h2]
        | error e2 => simp [retryCall, h1, h2]
  · intro n
    refine ⟨le_min (by norm_num) (le_max_left 4 _), min_le_left _ _⟩

/-- Claim C7, counterexample.  `clean_xml_artifacts` (pagination.py 95-117)
does not collapse an empty sequence: a dict with an empty-list value keeps
the empty-but-present container (`{"a": []}`), it does not become absent. -/
theorem c7_empty_list_not_collapsed :
    cleanP (Val.obj [("a", Val.list [])]) = Val.obj [("a", Val.list [])]
    ∧ Val.obj [("a", Val.list [])] ≠ Val.null := by
  exact ⟨rfl, by simp⟩

/-- Claim C7, amended.  In the pagination `clean_xml_artifacts`: an empty
mapping collapses to `None`, and a non-empty mapping all of whose entries
are dropped (attribute keys, or values that clean to `None`) collapses to
`None`; but a sequence is only cleaned element-wise — it is never collapsed,
empty or not. -/
theorem c7_empty_collapse_mappings_only
    (kvs : List (String × Val)) (xs : List Val)
    (hne : kvs ≠ []) (hdrop : cleanPEntries kvs = []) :
    cleanP (Val.obj []) = Val.null
    ∧ cleanP (Val.obj kvs) = Val.null
    ∧ cleanP (Val.list xs) = Val.list (cleanPList xs) := by
  refine ⟨rfl, ?_, rfl⟩
  cases kvs with
  | nil => exact absurd rfl hne
  | cons e rest => simp [cleanP, hdrop]

/-- Claim C7, witness: a dict holding only an attribute key, and a list
holding a `None`. -/
theorem c7_empty_collapse_mappings_only_witness :
    ([("@xmlns", Val.int 1)] ≠ ([] : List (String × Val)))
    ∧ cleanP (Val.obj []) = Val.null
    ∧ cleanP (Val.obj [("@xmlns", Val.int 1)]) = Val.null
    ∧ cleanP (Val.list [Val.null]) = Val.list (cleanPList [Val.null]) :=
  ⟨by simp, c7_empty_collapse_mappings_only [("@xmlns", Val.int 1)] [Val.null]
    (by simp) rfl⟩

/-- Claim C8, counterexample.  In `get_records_with_token` (pagination.py
302-304) a present item container that is neither a list nor a mapping — the
string "oops" — is coerced to an empty item list (`items = []`): no error is
raised or reported, and with the cursor at 5 the iteration ends in the
state-writing `next` branch and the loop re-enters with the same token,
rather than halting. -/
theorem c8_token_loop_swallows_malformed_container :
    tokenPageStep ["Items"] 5 (Val.obj [("Items", Val.str "oops")]) =
      StepOutcome.next [] 5 := rfl

/-- Claim C8, amended.  Only the custom-client loop (pagination.py 587-589)
treats a result that is neither a sequence nor a mapping as a malformed
response: it logs an error and breaks cleanly, leaving previously emitted
records and the cursor intact.  `get_records_with_token` instead coerces
such a container to an empty page without reporting, writes the unchanged
cursor and continues the loop. -/
theorem c8_malformed_result_halts_custom_loop
    (itemsKey : String) (tok : Int) (result : Val)
    (hshape : isContainer result = false) (htr : truthy result = true) (h1 : 1 ≤ tok) :
    customPageStep itemsKey tok (Val.obj [("ResponseValue", result)]) =
      StepOutcome.stopMalformed []
    ∧ tokenPageStep ["Items"] tok (Val.obj [("Items", result)]) =
      StepOutcome.next [] tok := by
  constructor
  · cases result with
    | obj kvs => simp [isContainer] at hshape
    | list xs => simp [isContainer] at hshape
    | null => simp [truthy] at htr
    | bool b =>
        have hb : b = true := by simpa [truthy] using htr
        subst hb
        simp [customPageStep, truthy, pyContains, List.lookup, customItems]
    | int n =>
        have hn : ¬ n = 0 := by simpa [truthy] using htr
        simp [customPageStep, truthy, pyContains, List.lookup, customItems, hn]
    | str s =>
        have hs : s.isEmpty = false := by simpa [truthy] using htr
        simp [customPageStep, truthy, pyContains, List.lookup, customItems, hs]
  · have hpos : tok > 0 := h1
    cases result with
    | obj kvs => simp [isContainer] at hshape
    | list xs => simp [isContainer] at hshape
    | null => simp [truthy] at htr
    | bool b =>
        have hb : b = true := by simpa [truthy] using htr
        subst hb
        simp [tokenPageStep, pyGet, extractPath, List.lookup, truthy,
          processItemsTok, hpos]
    | int n =>
        have hn : ¬ n = 0 := by simpa [truthy] using htr
        simp [tokenPageStep, pyGet, extractPath, List.lookup, truthy,
          processItemsTok, hpos, hn]
    | str s =>
        have hs : s.isEmpty = false := by simpa [truthy] using htr
        simp [tokenPageStep, pyGet, extractPath, List.lookup, truthy,
          processItemsTok, hpos, hs]

/-- Claim C8, witness: the container is the non-empty string "oops", cursor 5. -/
theorem c8_malformed_result_halts_custom_loop_witness :
    isContainer (Val.str "oops") = false
    ∧ customPageStep "Items" 5 (Val.obj [("ResponseValue", Val.str "oops")]) =
        StepOutcome.stopMalformed []
    ∧ tokenPageStep ["Items"] 5 (Val.obj [("Items", Val.str "oops")]) =
        StepOutcome.next [] 5 :=
  ⟨rfl, c8_malformed_result_halts_custom_loop "Items" 5 (Val.str "oops")
    rfl rfl (by decide)⟩

/-- Claim C9, counterexample.  `int(item.get("Token", 0))` (pagination.py
310) raises `ValueError` on the non-numeric token "abc": the exception
escapes the generator (`raised`), instead of the item being treated as
token 0 without raising. -/
theorem c9_unparseable_token_raises :
    tokenPageStep ["Items"] 1
      (Val.obj [("Items", Val.list [Val.obj [("Token", Val.str "abc")]])]) =
    StepOutcome.raised := rfl

/-- Claim C9, amended.  A *missing* token field defaults to 0 and, the
running maximum being seeded at the non-negative cursor, neither advances
nor regresses it; but a present, unparseable (non-numeric string) token is
not defaulted — `int()` raises and aborts item processing. -/
theorem c9_missing_token_defaults_unparseable_raises
    (kvs : List (String × Val)) (rt : Val) (h : Int) (s : String)
    (hmiss : kvs.lookup "Token" = none) (hnn : 0 ≤ h) (hbad : parseIntStr s = none) :
    processItemsTok rt h [Val.obj kvs] =
      some ((if truthy (Val.obj kvs) then [setVal (Val.obj kvs) "response_time" rt] else []), h)
    ∧ processItemsTok rt h [Val.obj [("Token", Val.str s)]] = none := by
  constructor
  · have hng : ¬ ((0 : Int) > h) := not_lt.mpr hnn
    simp [processItemsTok, pyGet, hmiss, pyInt, hng]
  · simp [processItemsTok, pyGet, List.lookup, pyInt, hbad]

/-- Claim C9, witness: an item with no token field at cursor 5, and the
token string "abc". -/
theorem c9_missing_token_defaults_unparseable_raises_witness :
    List.lookup "Token" [("ItemCode", Val.str "X")] = none
    ∧ processItemsTok (Val.int 0) 5 [Val.obj [("ItemCode", Val.str "X")]] =
        some ([setVal (Val.obj [("ItemCode", Val.str "X")]) "response_time" (Val.int 0)], 5)
    ∧ processItemsTok (Val.int 0) 5 [Val.obj [("Token", Val.str "abc")]] = none := by
  have h := c9_missing_token_defaults_unparseable_raises
    [("ItemCode", Val.str "X")] (Val.int 0) 5 "abc" rfl (by decide) rfl
  exact ⟨rfl, by simpa using h.1, h.2⟩

/-- Claim C10 (confirmed).  `_parse_soap_response` (client.py 186-220)
returns `{}` both when `xmltodict` raises on malformed XML (the `except`
path) and when the SOAP body holds no recognizable `...Response`/`...Result`
element and no `ResponseValue` fallback; and one iteration of
`get_records_with_token_pagination` on that `{}` breaks cleanly with zero
records and no state write — exactly the exhausted-backlog behaviour. -/
theorem c10_parse_failure_is_empty_page
    (tok : Int) (k : String) (bkvs : List (String × Val))
    (hfind : findResponseData bkvs = none) (hfall : fallbackRV bkvs = none) :
    parseSoapResponse none = Val.obj []
    ∧ parseSoapResponse (some (Val.obj [("soap:Envelope",
        Val.obj [("soap:Body", Val.obj bkvs)])])) = Val.obj []
    ∧ clientPageStep k tok (Val.obj []) = StepOutcome.stop [] := by
  refine ⟨rfl, ?_, rfl⟩
  simp [parseSoapResponse, soapNav, pyGet, List.lookup, hfind, hfall]

/-- Claim C10, witness: an empty SOAP body, items key "Items", cursor 7. -/
theorem c10_parse_failure_is_empty_page_witness :
    parseSoapResponse none = Val.obj []
    ∧ parseSoapResponse (some (Val.obj [("soap:Envelope",
        Val.obj [("soap:Body", Val.obj [])])])) = Val.obj []
    ∧ clientPageStep "Items" 7 (Val.obj []) = StepOutcome.stop [] :=
  c10_parse_failure_is_empty_page 7 "Items" [] rfl rfl

/-! ### Normalizer idempotence lemmas (claim C6) -/

theorem setEntry_append {k : String} (x : Val) :
    ∀ {l : List (String × Val)}, k ∉ l.map Prod.fst → setEntry l k x = l ++ [(k, x)] := by
  intro l
  induction l with
  | nil => intro _; rfl
  | cons e t ih =>
      intro h
      simp only [List.map_cons, List.mem_cons] at h
      push_neg at h
      cases e with
      | mk k' v' =>
          simp only [setEntry]
          rw [if_neg fun hk => h.1 hk.symm, ih h.2]
          simp

theorem setEntry_cons_self (k : String) (v x : Val) (t : List (String × Val)) :
    setEntry ((k, v) :: t) k x = (k, x) :: t := by
  simp [setEntry]

theorem setEntry_cons_ne {k' k : String} (h : k' ≠ k) (v x : Val)
    (t : List (String × Val)) :
    setEntry ((k', v) :: t) k x = (k', v) :: setEntry t k x := by
  simp [setEntry, h]

theorem mem_keys_setEntry {k a : String} {x : Val} :
    ∀ {l : List (String × Val)},
    a ∈ (setEntry l k x).map Prod.fst → a = k ∨ a ∈ l.map Prod.fst := by
  intro l
  induction l with
  | nil => simp [setEntry]
  | cons e t ih =>
      obtain ⟨k', v'⟩ := e
      by_cases hkk : k' = k
      · subst hkk
        rw [setEntry_cons_self]
        intro hm
        rw [List.map_cons, List.mem_cons] at hm ⊢
        tauto
      · rw [setEntry_cons_ne hkk]
        intro hm
        rw [List.map_cons, List.mem_cons] at hm ⊢
        rcases hm with h | h
        · tauto
        · rcases ih h with h' | h' <;> tauto

theorem nodup_setEntry {k : String} (x : Val) :
    ∀ {l : List (String × Val)},
    (l.map Prod.fst).Nodup → ((setEntry l k x).map Prod.fst).Nodup := by
  intro l
  induction l with
  | nil => intro _; simp [setEntry]
  | cons e t ih =>
      obtain ⟨k', v'⟩ := e
      intro h
      rw [List.map_cons, List.nodup_cons] at h
      obtain ⟨h1, h2⟩ := h
      by_cases hkk : k' = k
      · subst hkk
        rw [setEntry_cons_self, List.map_cons, List.nodup_cons]
        exact ⟨h1, h2⟩
      · rw [setEntry_cons_ne hkk, List.map_cons, List.nodup_cons]
        refine ⟨fun hmem => ?_, ih h2⟩
        rcases mem_keys_setEntry hmem with h' | h'
        · exact hkk h'
        · exact h1 h'

theorem flat_setEntry {k : String} {x : Val} (hx : isContainer x = false) :
    ∀ {l : List (String × Val)}, (∀ p ∈ l, isContainer p.2 = false) →
    ∀ p ∈ setEntry l k x, isContainer p.2 = false := by
  intro l
  induction l with
  | nil =>
      intro _ p hp
      simp only [setEntry, List.mem_singleton] at hp
      rw [hp]
      exact hx
  | cons e t ih =>
      obtain ⟨k', v'⟩ := e
      intro hl p hp
      by_cases hkk : k' = k
      · subst hkk
        rw [setEntry_cons_self, List.mem_cons] at hp
        rcases hp with hp | hp
        · rw [hp]; exact hx
        · exact hl p (List.mem_cons_of_mem _ hp)
      · rw [setEntry_cons_ne hkk, List.mem_cons] at hp
        rcases hp with hp | hp
        · rw [hp]; exact hl _ (List.mem_cons_self _ _)
        · exact ih (fun q hq => hl q (List.mem_cons_of_mem _ hq)) p hp

/-- `jsonEnc` always yields a serialized string, never a container. -/
theorem isContainer_jsonEnc (v : Val) : isContainer (jsonEnc v) = false := rfl

theorem flat_nodup_liftEntry {acc : List (String × Val)} (e : String × Val)
    (hf : ∀ p ∈ acc, isContainer p.2 = false) (hn : (acc.map Prod.fst).Nodup) :
    (∀ p ∈ liftEntry acc e, isContainer p.2 = false)
    ∧ ((liftEntry acc e).map Prod.fst).Nodup := by
  obtain ⟨k, v⟩ := e
  cases v with
  | obj s => exact ⟨@flat_setEntry k (jsonEnc (Val.obj s)) rfl acc hf, nodup_setEntry _ hn⟩
  | list xs => exact ⟨@flat_setEntry k (jsonEnc (Val.list xs)) rfl acc hf, nodup_setEntry _ hn⟩
  | null => exact ⟨@flat_setEntry k Val.null rfl acc hf, nodup_setEntry _ hn⟩
  | bool b => exact ⟨@flat_setEntry k (Val.bool b) rfl acc hf, nodup_setEntry _ hn⟩
  | int n => exact ⟨@flat_setEntry k (Val.int n) rfl acc hf, nodup_setEntry _ hn⟩
  | str s => exact ⟨@flat_setEntry k (Val.str s) rfl acc hf, nodup_setEntry _ hn⟩

theorem flat_nodup_foldl_liftEntry (sub : List (String × Val)) :
    ∀ acc, (∀ p ∈ acc, isContainer p.2 = false) → (acc.map Prod.fst).Nodup →
    (∀ p ∈ sub.foldl liftEntry acc, isContainer p.2 = false)
    ∧ ((sub.foldl liftEntry acc).map Prod.fst).Nodup := by
  induction sub with
  | nil => exact fun acc hf hn => ⟨hf, hn⟩
  | cons e t ih =>
      intro acc hf hn
      obtain ⟨hf', hn'⟩ := flat_nodup_liftEntry e hf hn
      exact ih _ hf' hn'

theorem flat_nodup_pnoStep {acc : List (String × Val)} (e : String × Val)
    (hf : ∀ p ∈ acc, isContainer p.2 = false) (hn : (acc.map Prod.fst).Nodup) :
    (∀ p ∈ pnoStep acc e, isContainer p.2 = false)
    ∧ ((pnoStep acc e).map Prod.fst).Nodup := by
  obtain ⟨k, v⟩ := e
  cases v with
  | obj sub =>
      by_cases hk : k = "ItemInformation"
      · simpa [pnoStep, hk] using flat_nodup_foldl_liftEntry sub acc hf hn
      · simpa [pnoStep, hk] using
          And.intro (@flat_setEntry k (jsonEnc (Val.obj sub)) rfl acc hf)
            (nodup_setEntry (jsonEnc (Val.obj sub)) hn)
  | list xs => exact ⟨@flat_setEntry k (jsonEnc (Val.list xs)) rfl acc hf, nodup_setEntry _ hn⟩
  | null => exact ⟨@flat_setEntry k Val.null rfl acc hf, nodup_setEntry _ hn⟩
  | bool b => exact ⟨@flat_setEntry k (Val.bool b) rfl acc hf, nodup_setEntry _ hn⟩
  | int n => exact ⟨@flat_setEntry k (Val.int n) rfl acc hf, nodup_setEntry _ hn⟩
  | str s => exact ⟨@flat_setEntry k (Val.str s) rfl acc hf, nodup_setEntry _ hn⟩

theorem flat_nodup_foldl_pnoStep (l : List (String × Val)) :
    ∀ acc, (∀ p ∈ acc, isContainer p.2 = false) → (acc.map Prod.fst).Nodup →
    (∀ p ∈ l.foldl pnoStep acc, isContainer p.2 = false)
    ∧ ((l.foldl pnoStep acc).map Prod.fst).Nodup := by
  induction l with
  | nil => exact fun acc hf hn => ⟨hf, hn⟩
  | cons e t ih =>
      intro acc hf hn
      obtain ⟨hf', hn'⟩ := flat_nodup_pnoStep e hf hn
      exact ih _ hf' hn'

theorem pnoP_flat_nodup (item : List (String × Val)) :
    (∀ p ∈ pnoP item, isContainer p.2 = false)
    ∧ ((pnoP item).map Prod.fst).Nodup :=
  flat_nodup_foldl_pnoStep item [] (by simp) (by simp)

theorem pnoStep_of_flat {acc : List (String × Val)} {p : String × Val}
    (hp : isContainer p.2 = false) : pnoStep acc p = setEntry acc p.1 p.2 := by
  cases p with
  | mk k v =>
      cases v with
      | obj sub => simp [isContainer] at hp
      | list xs => simp [isContainer] at hp
      | null => rfl
      | bool b => rfl
      | int n => rfl
      | str s => rfl

theorem foldl_pnoStep_of_flat :
    ∀ (l : List (String × Val)) (acc : List (String × Val)),
    (∀ p ∈ l, isContainer p.2 = false) →
    l.foldl pnoStep acc = l.foldl (fun a p => setEntry a p.1 p.2) acc := by
  intro l
  induction l with
  | nil => intro acc _; rfl
  | cons e t ih =>
      intro acc hl
      simp only [List.foldl_cons]
      rw [pnoStep_of_flat (hl e (List.mem_cons_self _ _))]
      exact ih _ fun p hp => hl p (List.mem_cons_of_mem _ hp)

theorem foldl_setEntry_eq_append :
    ∀ (l acc : List (String × Val)), (((acc ++ l).map Prod.fst)).Nodup →
    l.foldl (fun a p => setEntry a p.1 p.2) acc = acc ++ l := by
  intro l
  induction l with
  | nil => intro acc _; simp
  | cons e t ih =>
      intro acc hn
      have hkeys : ((acc.map Prod.fst ++ e.1 :: t.map Prod.fst)).Nodup := by
        simpa using hn
      have he : e.1 ∉ acc.map Prod.fst := fun hmem =>
        ((List.nodup_append.mp hkeys).2.2 hmem) (List.mem_cons_self _ _)
      simp only [List.foldl_cons]
      rw [setEntry_append e.2 he]
      have hconv : acc ++ [(e.1, e.2)] = acc ++ [e] := by simp
      rw [hconv, ih (acc ++ [e]) (by simpa using hn)]
      simp

theorem pnoP_idem (item : List (String × Val)) : pnoP (pnoP item) = pnoP item := by
  obtain ⟨hflat, hnodup⟩ := pnoP_flat_nodup item
  show (pnoP item).foldl pnoStep [] = pnoP item
  rw [foldl_pnoStep_of_flat (pnoP item) [] hflat]
  have := foldl_setEntry_eq_append (pnoP item) [] (by simpa using hnodup)
  simpa using this

/-- Rewriting a list by a function that fixes each of its elements. -/
theorem map_fix {α : Type} {f : α → α} :
    ∀ {l : List α}, (∀ x ∈ l, f x = x) → l.map f = l := by
  intro l
  induction l with
  | nil => intro _; rfl
  | cons x t ih =>
      intro h
      rw [List.map_cons, h x (List.mem_cons_self _ _),
        ih fun y hy => h y (List.mem_cons_of_mem _ hy)]

theorem cleanCEntries_eq_map :
    ∀ l : List (String × Val), cleanCEntries l = l.map fun p => (p.1, cleanC p.2) := by
  intro l
  induction l with
  | nil => rfl
  | cons e t ih =>
      obtain ⟨k, v⟩ := e
      rw [cleanCEntries, ih]
      rfl

/-- The client cleaner never produces an empty mapping: an empty dict
becomes `None` and a non-empty one keeps all its keys. -/
theorem cleanC_ne_emptyObj : ∀ v : Val, cleanC v ≠ Val.obj [] := by
  intro v
  cases v with
  | obj kvs =>
      cases kvs with
      | nil => simp [cleanC]
      | cons e t => simp [cleanC, cleanCEntries]
  | list xs => simp [cleanC]
  | null => simp [cleanC]
  | bool b => simp [cleanC]
  | int n => simp [cleanC]
  | str s => simp [cleanC]

/-- Every entry of a `pnoC` output is fixed both by the client cleaner and
by the serialization rewrite: its value is a scalar, a serialized string,
or an empty list. -/
theorem convC_cleanC_fix (k : String) (w : Val) :
    cleanC (convC (k, cleanC w)).2 = (convC (k, cleanC w)).2
    ∧ convC (convC (k, cleanC w)) = convC (k, cleanC w) := by
  cases hw : cleanC w with
  | obj okvs =>
      cases okvs with
      | nil => exact absurd hw (cleanC_ne_emptyObj w)
      | cons o ot => simp [convC, isContainer, truthy, cleanC]
  | list xs =>
      cases xs with
      | nil => simp [convC, isContainer, truthy, cleanC, cleanCList]
      | cons x xt => simp [convC, isContainer, truthy, cleanC]
  | null => simp [convC, isContainer, cleanC]
  | bool b => simp [convC, isContainer, cleanC]
  | int n => simp [convC, isContainer, cleanC]
  | str s => simp [convC, isContainer, cleanC]

theorem pnoC_idem (item : List (String × Val)) :
    ∀ out, pnoC item = some out → pnoC out = some out := by
  intro out h
  cases item with
  | nil => simp [pnoC, cleanC] at h
  | cons e t =>
      have hout : out = (cleanCEntries (e :: t)).map convC := by
        simp [pnoC, cleanC] at h
        exact h.symm
      have hfix : ∀ p ∈ out, cleanC p.2 = p.2 ∧ convC p = p := by
        intro p hp
        rw [hout, cleanCEntries_eq_map] at hp
        simp only [List.map_map, List.mem_map] at hp
        obtain ⟨q, _, hq⟩ := hp
        have := convC_cleanC_fix q.1 q.2
        subst hq
        simpa using this
      have houtne : out ≠ [] := by
        rw [hout, cleanCEntries_eq_map]
        simp
      cases ho : out with
      | nil => exact absurd ho houtne
      | cons o ot =>
          rw [← ho]
          have hclean : cleanC (Val.obj out) = Val.obj out := by
            rw [ho]
            show cleanC (Val.obj (o :: ot)) = Val.obj (o :: ot)
            rw [cleanC, if_neg (by simp), cleanCEntries_eq_map]
            rw [map_fix fun p hp => ?_]
            · rw [← ho] at hp
              have := (hfix p hp).1
              cases p with
              | mk pk pv => simp [this]
          have hmap : out.map convC = out :=
            map_fix fun p hp => (hfix p hp).2
          rw [pnoC, hclean]
          show some (List.map convC out) = some out
          rw [hmap]

/-- Claim C6 (confirmed).  Both normalizers are pure Lean functions of their
input (the embedding has no state or I/O; the source builds new dicts and
leaves its argument intact) and both are idempotent: re-normalizing the
pagination normalizer's output reproduces it exactly, and whenever the
client normalizer succeeds, re-applying it to its output succeeds with the
same result (it fails only on an empty item dict, where `.items()` on the
`None` left by the cleaner raises — and then there is no output to re-feed). -/
theorem c6_normalize_idempotent (item : List (String × Val)) :
    pnoP (pnoP item) = pnoP item
    ∧ ∀ out, pnoC item = some out → pnoC out = some out :=
  ⟨pnoP_idem item, pnoC_idem item⟩

/-- Claim C6, witness: an item with one nested composite field; both
normalizers map it to the serialized flat form and are idempotent there. -/
theorem c6_normalize_idempotent_witness :
    pnoP (pnoP [("a", Val.obj [("b", Val.int 2)])]) =
      pnoP [("a", Val.obj [("b", Val.int 2)])]
    ∧ pnoC [("a", Val.str "\x7b\"b\": 2\x7d")] =
        some [("a", Val.str "\x7b\"b\": 2\x7d")] :=
  ⟨(c6_normalize_idempotent [("a", Val.obj [("b", Val.int 2)])]).1,
   (c6_normalize_idempotent [("a", Val.obj [("b", Val.int 2)])]).2
     [("a", Val.str "\x7b\"b\": 2\x7d")] rfl⟩

/-! ### Round-trip lemmas (claim C5)

`loads (dumps (cleanP v)) = some (cleanP v)`: the serialized-composite
encoding is decoded back to exactly the cleaned value. -/

/-! Structural size of a value, measuring the parser fuel one value needs. -/

mutual

def sizeV : Val → Nat
  | .null => 1
  | .bool _ => 1
  | .int _ => 1
  | .str _ => 1
  | .list xs => 2 + sizeL xs
  | .obj kvs => 2 + sizeO kvs

def sizeL : List Val → Nat
  | [] => 0
  | x :: t => 1 + sizeV x + sizeL t

def sizeO : List (String × Val) → Nat
  | [] => 0
  | (_, v) :: t => 1 + sizeV v + sizeO t

end

/-! Well-formedness marking the modelling envelope of `json.dumps`: string
contents (keys and values) of printable ASCII.  Outside it Python would
`\uXXXX`-escape characters, which the model does not render. -/

def asciiOk (c : Char) : Bool := 32 ≤ c.toNat && c.toNat ≤ 126

def strOk (s : String) : Bool := s.data.all asciiOk

mutual

def wfVal : Val → Bool
  | .str s => strOk s
  | .list xs => wfL xs
  | .obj kvs => wfE kvs
  | _ => true

def wfL : List Val → Bool
  | [] => true
  | x :: t => wfVal x && wfL t

def wfE : List (String × Val) → Bool
  | [] => true
  | (k, v) :: t => strOk k && wfVal v && wfE t

end

theorem natCharsAux_append :
    ∀ (fuel n : Nat) (acc : List Char),
    natCharsAux fuel n acc = natCharsAux fuel n [] ++ acc := by
  intro fuel
  induction fuel with
  | zero => intro n acc; rfl
  | succ f ih =>
      intro n acc
      by_cases h : n < 10
      · simp [natCharsAux, h]
      · rw [natCharsAux, if_neg h, natCharsAux, if_neg h,
          ih (n / 10) (Char.ofNat (n % 10 + 48) :: acc),
          ih (n / 10) [Char.ofNat (n % 10 + 48)]]
        simp

theorem natCharsAux_fuel :
    ∀ (n f1 f2 : Nat), n < f1 → n < f2 →
    natCharsAux f1 n [] = natCharsAux f2 n [] := by
  intro n
  induction n using Nat.strong_induction_on with
  | _ n ih =>
      intro f1 f2 h1 h2
      cases f1 with
      | zero => omega
      | succ g1 =>
          cases f2 with
          | zero => omega
          | succ g2 =>
              by_cases h : n < 10
              · simp [natCharsAux, h]
              · rw [natCharsAux, if_neg h, natCharsAux, if_neg h,
                  natCharsAux_append g1, natCharsAux_append g2]
                have hd : n / 10 < n := Nat.div_lt_self (by omega) (by omega)
                rw [ih (n / 10) hd g1 g2 (by omega) (by omega)]

/-- `natChars` splits off its last digit above 9. -/
theorem natChars_split {n : Nat} (h : ¬ n < 10) :
    natChars n = natChars (n / 10) ++ [Char.ofNat (n % 10 + 48)] := by
  have hd : n / 10 < n := Nat.div_lt_self (by omega) (by omega)
  rw [natChars, natCharsAux, if_neg h, natCharsAux_append,
    natCharsAux_fuel (n / 10) n (n / 10 + 1) (by omega) (by omega)]
  rfl

/-- The head of a rendered number is a decimal digit character. -/
theorem natChars_shape :
    ∀ n : Nat, ∃ (d : Nat) (cs : List Char),
    d < 10 ∧ natChars n = Char.ofNat (d + 48) :: cs := by
  intro n
  induction n using Nat.strong_induction_on with
  | _ n ih =>
      by_cases h : n < 10
      · exact ⟨n, [], h, by simp [natChars, natCharsAux, h]⟩
      · have hd : n / 10 < n := Nat.div_lt_self (by omega) (by omega)
        obtain ⟨d, cs, hdlt, hsp⟩ := ih (n / 10) hd
        exact ⟨d, cs ++ [Char.ofNat (n % 10 + 48)], hdlt, by
          rw [natChars_split h, hsp]
          simp⟩

theorem digitChar_isDigit {d : Nat} (h : d < 10) :
    (Char.ofNat (d + 48)).isDigit = true := by
  interval_cases d <;> decide

theorem digitChar_val {d : Nat} (h : d < 10) :
    (Char.ofNat (d + 48)).toNat - 48 = d := by
  interval_cases d <;> decide

theorem digitChar_not_ws {d : Nat} (h : d < 10) :
    isWsChar (Char.ofNat (d + 48)) = false := by
  interval_cases d <;> decide

/-- A digit head is not one of the characters the value parser dispatches
on, nor a structural delimiter. -/
theorem digitChar_ne {d : Nat} (h : d < 10) :
    Char.ofNat (d + 48) ≠ 'n' ∧ Char.ofNat (d + 48) ≠ 't'
    ∧ Char.ofNat (d + 48) ≠ 'f' ∧ Char.ofNat (d + 48) ≠ '"'
    ∧ Char.ofNat (d + 48) ≠ '[' ∧ Char.ofNat (d + 48) ≠ '\x7b'
    ∧ Char.ofNat (d + 48) ≠ '-' ∧ Char.ofNat (d + 48) ≠ ']'
    ∧ Char.ofNat (d + 48) ≠ '\x7d' ∧ Char.ofNat (d + 48) ≠ ',' := by
  interval_cases d <;> decide

/-- The input does not begin with a digit (so a preceding number token
cannot absorb it). -/
def notDigitStart : List Char → Prop
  | [] => True
  | c :: _ => c.isDigit = false

theorem parseDigits_natChars :
    ∀ n a : Nat, ∀ rest : List Char,
    parseDigits a (natChars n ++ rest) =
      parseDigits (a * 10 ^ (natChars n).length + n) rest := by
  intro n
  induction n using Nat.strong_induction_on with
  | _ n ih =>
      intro a rest
      by_cases h : n < 10
      · have hnc : natChars n = [Char.ofNat (n + 48)] := by
          simp [natChars, natCharsAux, h]
        rw [hnc]
        simp only [List.cons_append, List.nil_append, List.length_singleton]
        rw [parseDigits, if_pos (digitChar_isDigit h), digitChar_val h]
        norm_num
      · have hd : n / 10 < n := Nat.div_lt_self (by omega) (by omega)
        have hsplit := natChars_split h
        rw [hsplit, List.append_assoc, ih (n / 10) hd a _]
        simp only [List.cons_append, List.nil_append]
        rw [parseDigits, if_pos (digitChar_isDigit (by omega : n % 10 < 10)),
          digitChar_val (by omega : n % 10 < 10)]
        have hlen : (natChars (n / 10) ++ [Char.ofNat (n % 10 + 48)]).length
            = (natChars (n / 10)).length + 1 := by simp
        rw [hlen]
        congr 1
        have hmod : n / 10 * 10 + n % 10 = n := by omega
        rw [pow_succ]
        ring_nf
        omega

theorem parseDigits_stop {n : Nat} {rest : List Char} (hnd : notDigitStart rest) :
    parseDigits n rest = (n, rest) := by
  cases rest with
  | nil => rfl
  | cons c r =>
      have hc : c.isDigit = false := hnd
      rw [parseDigits, if_neg (by simp [hc])]

theorem parseNum_natChars (n : Nat) (rest : List Char) (hnd : notDigitStart rest) :
    parseNum (natChars n ++ rest) = some (n, rest) := by
  obtain ⟨d, cs, hd, hsp⟩ := natChars_shape n
  have h0 : parseNum (natChars n ++ rest) = some (parseDigits 0 (natChars n ++ rest)) := by
    rw [hsp]
    simp only [List.cons_append]
    rw [parseNum, if_pos (digitChar_isDigit hd), parseDigits,
      if_pos (digitChar_isDigit hd)]
    norm_num
  rw [h0, parseDigits_natChars n 0 rest]
  simp only [Nat.zero_mul, Nat.zero_add]
  rw [parseDigits_stop hnd]

theorem parseStrChars_esc :
    ∀ l rest : List Char,
    parseStrChars (escChars l ++ ('"' :: rest)) = some (l, rest) := by
  intro l
  induction l with
  | nil =>
      intro rest
      show parseStrChars ('"' :: rest) = some ([], rest)
      rfl
  | cons c t ih =>
      intro rest
      by_cases hq : c = '"'
      · subst hq
        simp [escChars, parseStrChars, parseStrEsc, ih]
      · by_cases hb : c = '\\'
        · subst hb
          simp [escChars, parseStrChars, parseStrEsc, ih]
        · rw [escChars, if_neg hq, if_neg hb]
          simp only [List.cons_append]
          rw [parseStrChars.eq_def]
          simp only [if_neg hq, if_neg hb, ih]
          rfl

theorem skipWs_cons {c : Char} (h : isWsChar c = false) (l : List Char) :
    skipWs (c :: l) = c :: l := by
  simp [skipWs, h]

/-- A rendered value starts with a printing, non-delimiter character. -/
theorem renderV_head :
    ∀ v : Val, ∃ (c : Char) (cs : List Char), renderV v = c :: cs
    ∧ isWsChar c = false ∧ c ≠ ']' ∧ c ≠ '\x7d' ∧ c ≠ ',' := by
  intro v
  cases v with
  | null =>
      refine ⟨'n', _, rfl, ?_⟩
      decide
  | bool b =>
      cases b with
      | false => exact ⟨'f', _, rfl, by decide⟩
      | true => exact ⟨'t', _, rfl, by decide⟩
  | int n =>
      by_cases hneg : n < 0
      · exact ⟨'-', natChars (-n).toNat, by simp [renderV, intChars, hneg], by decide⟩
      · obtain ⟨d, cs, hd, hsp⟩ := natChars_shape n.toNat
        obtain ⟨-, -, -, -, -, -, -, h1, h2, h3⟩ := digitChar_ne hd
        exact ⟨Char.ofNat (d + 48), cs, by simp [renderV, intChars, hneg, hsp],
          digitChar_not_ws hd, h1, h2, h3⟩
  | str s => exact ⟨'"', _, rfl, by decide⟩
  | list xs => exact ⟨'[', _, rfl, by decide⟩
  | obj kvs => exact ⟨'\x7b', _, rfl, by decide⟩

theorem skipWs_renderV (v : Val) (r : List Char) :
    skipWs (renderV v ++ r) = renderV v ++ r := by
  obtain ⟨c, cs, hv, hws, -, -, -⟩ := renderV_head v
  rw [hv, List.cons_append, skipWs_cons hws]

theorem ndsITail (t : List Val) (r : List Char) :
    notDigitStart (renderITail t ++ (']' :: r)) := by
  cases t with
  | nil => exact (by decide : (']' : Char).isDigit = false)
  | cons y t' => exact (by decide : ((',') : Char).isDigit = false)

theorem ndsETail (t : List (String × Val)) (r : List Char) :
    notDigitStart (renderETail t ++ ('\x7d' :: r)) := by
  cases t with
  | nil => exact (by decide : ('\x7d' : Char).isDigit = false)
  | cons e t' =>
      obtain ⟨k, v⟩ := e
      exact (by decide : ((',') : Char).isDigit = false)

theorem sizeV_pos (v : Val) : 1 ≤ sizeV v := by
  cases v <;> simp only [sizeV] <;> omega

/-- Split one unit of fuel off a positive fuel counter. -/
theorem fuel_split {f : Nat} (h : 0 < f) : ∃ g, f = g + 1 :=
  ⟨f - 1, (Nat.succ_pred_eq_of_pos h).symm⟩

theorem string_eta (s : String) : String.mk s.data = s := rfl

theorem skipWs_space (l : List Char) : skipWs (' ' :: l) = skipWs l := by
  simp [skipWs, isWsChar]

/-! One-step unfoldings of the parser on an input whose head is known and
not whitespace. -/

theorem parseV_succ (f : Nat) {c : Char} (l : List Char) (hws : isWsChar c = false) :
    parseV (Nat.succ f) (c :: l) =
      (if c = 'n' then (expectChars ['u', 'l', 'l'] l).map fun r => (Val.null, r)
       else if c = 't' then (expectChars ['r', 'u', 'e'] l).map fun r => (Val.bool true, r)
       else if c = 'f' then (expectChars ['a', 'l', 's', 'e'] l).map fun r => (Val.bool false, r)
       else if c = '"' then (parseStrChars l).map fun (p, r) => (Val.str (String.mk p), r)
       else if c = '[' then parseArr f l
       else if c = '\x7b' then parseObjB f l
       else if c = '-' then (parseNum l).map fun (n, r) => (Val.int (-(n : Int)), r)
       else (parseNum (c :: l)).map fun (n, r) => (Val.int (n : Int), r)) := by
  rw [parseV, skipWs_cons hws]

theorem parseV_space (f : Nat) (l : List Char) :
    parseV (Nat.succ f) (' ' :: l) = parseV (Nat.succ f) l := by
  rw [parseV, parseV, skipWs_space]

theorem parseArr_succ (f : Nat) {c : Char} (l : List Char) (hws : isWsChar c = false) :
    parseArr (Nat.succ f) (c :: l) =
      (if c = ']' then some (.list [], l)
       else
         match parseV f (c :: l) with
         | some (v, rest1) =>
             (parseArrTail f rest1).map fun (vs, r) => (.list (v :: vs), r)
         | none => none) := by
  rw [parseArr, skipWs_cons hws]

theorem parseArrTail_succ (f : Nat) {c : Char} (l : List Char) (hws : isWsChar c = false) :
    parseArrTail (Nat.succ f) (c :: l) =
      (if c = ']' then some ([], l)
       else if c = ',' then
         match parseV f l with
         | some (v, rest1) =>
             (parseArrTail f rest1).map fun (vs, r) => (v :: vs, r)
         | none => none
       else none) := by
  rw [parseArrTail, skipWs_cons hws]

theorem parseObjB_succ (f : Nat) {c : Char} (l : List Char) (hws : isWsChar c = false) :
    parseObjB (Nat.succ f) (c :: l) =
      (if c = '\x7d' then some (.obj [], l)
       else if c = '"' then
         match parseStrChars l with
         | some (k, r1) =>
             match skipWs r1 with
             | [] => none
             | d :: r2 =>
                 if d = ':' then
                   match parseV f r2 with
                   | some (v, r3) =>
                       (parseObjTail f r3).map fun (kvs, r) =>
                         (.obj ((String.mk k, v) :: kvs), r)
                   | none => none
                 else none
         | none => none
       else none) := by
  rw [parseObjB, skipWs_cons hws]

theorem parseObjTail_succ (f : Nat) {c : Char} (l : List Char) (hws : isWsChar c = false) :
    parseObjTail (Nat.succ f) (c :: l) =
      (if c = '\x7d' then some ([], l)
       else if c = ',' then
         match skipWs l with
         | [] => none
         | d :: rest' =>
             if d = '"' then
               match parseStrChars rest' with
               | some (k, r1) =>
                   match skipWs r1 with
                   | [] => none
                   | e :: r2 =>
                       if e = ':' then
                         match parseV f r2 with
                         | some (v, r3) =>
                             (parseObjTail f r3).map fun (kvs, r) =>
                               ((String.mk k, v) :: kvs, r)
                         | none => none
                       else none
               | none => none
             else none
       else none) := by
  rw [parseObjTail, skipWs_cons hws]

/-- Parser/printer round trip: with fuel at least the structural size, the
parser consumes exactly a rendered value (list tail, entry tail) and returns
it unchanged, leaving the rest of the input. -/
theorem parseRT : ∀ N : Nat,
    (∀ v f rest, sizeV v ≤ N → sizeV v ≤ f → notDigitStart rest →
      parseV f (renderV v ++ rest) = some (v, rest))
    ∧ (∀ xs f rest, 1 + sizeL xs ≤ N → 1 + sizeL xs ≤ f →
      parseArrTail f (renderITail xs ++ (']' :: rest)) = some (xs, rest))
    ∧ (∀ kvs f rest, 1 + sizeO kvs ≤ N → 1 + sizeO kvs ≤ f →
      parseObjTail f (renderETail kvs ++ ('\x7d' :: rest)) = some (kvs, rest)) := by
  intro N
  induction N using Nat.strong_induction_on with
  | _ N IH =>
      refine ⟨?_, ?_, ?_⟩
      · intro v f rest hN hf hnd
        obtain ⟨g, rfl⟩ := fuel_split (f := f) (by have := sizeV_pos v; omega)
        cases v with
        | null => rfl
        | bool b => cases b <;> rfl
        | int n =>
            by_cases hneg : n < 0
            · have h1 : renderV (Val.int n) ++ rest
                  = '-' :: (natChars (-n).toNat ++ rest) := by
                simp [renderV, intChars, hneg]
              rw [h1, parseV_succ g _ (by decide)]
              rw [if_neg (by decide), if_neg (by decide), if_neg (by decide),
                if_neg (by decide), if_neg (by decide), if_neg (by decide), if_pos rfl]
              rw [parseNum_natChars _ rest hnd]
              have htn : (((-n).toNat : Int)) = -n := Int.toNat_of_nonneg (by omega)
              simp [htn]
            · obtain ⟨d, cs, hd, hsp⟩ := natChars_shape n.toNat
              obtain ⟨hn1, hn2, hn3, hn4, hn5, hn6, hn7, -, -, -⟩ := digitChar_ne hd
              have h1 : renderV (Val.int n) ++ rest
                  = Char.ofNat (d + 48) :: (cs ++ rest) := by
                simp [renderV, intChars, hneg, hsp]
              rw [h1, parseV_succ g _ (digitChar_not_ws hd)]
              rw [if_neg hn1, if_neg hn2, if_neg hn3, if_neg hn4, if_neg hn5,
                if_neg hn6, if_neg hn7]
              have h2 : Char.ofNat (d + 48) :: (cs ++ rest) = natChars n.toNat ++ rest := by
                rw [hsp]
                rfl
              rw [h2, parseNum_natChars _ rest hnd]
              have htn : ((n.toNat : Int)) = n := Int.toNat_of_nonneg (by omega)
              simp [htn]
        | str s =>
            have h1 : renderV (Val.str s) ++ rest
                = '"' :: (escChars s.data ++ ('"' :: rest)) := by
              simp [renderV]
            rw [h1, parseV_succ g _ (by decide)]
            rw [if_neg (by decide), if_neg (by decide), if_neg (by decide), if_pos rfl]
            rw [parseStrChars_esc]
            simp [string_eta]
        | list xs =>
            have h1 : renderV (Val.list xs) ++ rest
                = '[' :: (renderItems xs ++ (']' :: rest)) := by
              simp [renderV]
            rw [h1, parseV_succ g _ (by decide)]
            rw [if_neg (by decide), if_neg (by decide), if_neg (by decide),
              if_neg (by decide), if_pos rfl]
            simp only [sizeV] at hN hf
            cases xs with
            | nil =>
                obtain ⟨h, rfl⟩ := fuel_split (f := g) (by omega)
                rw [show renderItems ([] : List Val) ++ (']' :: rest)
                  = ']' :: rest from rfl]
                rw [parseArr_succ _ _ (by decide), if_pos rfl]
            | cons x t =>
                have hx1 := sizeV_pos x
                have hsz : sizeL (x :: t) = 1 + sizeV x + sizeL t := rfl
                obtain ⟨h, rfl⟩ := fuel_split (f := g) (by omega)
                obtain ⟨c, cs, hv, hws, hne1, -, -⟩ := renderV_head x
                have h2 : renderItems (x :: t) ++ (']' :: rest)
                    = c :: (cs ++ (renderITail t ++ (']' :: rest))) := by
                  rw [renderItems, hv]
                  simp
                rw [h2, parseArr_succ _ _ hws, if_neg hne1]
                have h3 : c :: (cs ++ (renderITail t ++ (']' :: rest)))
                    = renderV x ++ (renderITail t ++ (']' :: rest)) := by
                  rw [hv]
                  rfl
                rw [h3]
                have hPv := (IH (sizeV x) (by omega)).1 x h
                  (renderITail t ++ (']' :: rest)) (le_refl _) (by omega)
                  (ndsITail t rest)
                have hPt := (IH (1 + sizeL t) (by omega)).2.1 t h rest
                  (le_refl _) (by omega)
                simp [hPv, hPt]
        | obj kvs =>
            have h1 : renderV (Val.obj kvs) ++ rest
                = '\x7b' :: (renderEntries kvs ++ ('\x7d' :: rest)) := by
              simp [renderV]
            rw [h1, parseV_succ g _ (by decide)]
            rw [if_neg (by decide), if_neg (by decide), if_neg (by decide),
              if_neg (by decide), if_neg (by decide), if_pos rfl]
            simp only [sizeV] at hN hf
            cases kvs with
            | nil =>
                obtain ⟨h, rfl⟩ := fuel_split (f := g) (by omega)
                rw [show renderEntries ([] : List (String × Val)) ++ ('\x7d' :: rest)
                  = '\x7d' :: rest from rfl]
                rw [parseObjB_succ _ _ (by decide), if_pos rfl]
            | cons e t =>
                obtain ⟨k, v⟩ := e
                have hv1 := sizeV_pos v
                have hsz : sizeO ((k, v) :: t) = 1 + sizeV v + sizeO t := rfl
                obtain ⟨h, rfl⟩ := fuel_split (f := g) (by omega)
                obtain ⟨h2f, rfl⟩ := fuel_split (f := h) (by omega)
                have h2 : renderEntries ((k, v) :: t) ++ ('\x7d' :: rest)
                    = '"' :: (escChars k.data ++ ('"' :: (':' :: (' ' ::
                      (renderV v ++ (renderETail t ++ ('\x7d' :: rest))))))) := by
                  rw [renderEntries, renderKey]
                  simp
                rw [h2, parseObjB_succ _ _ (by decide)]
                rw [if_neg (by decide), if_pos rfl]
                rw [parseStrChars_esc]
                have hPv := (IH (sizeV v) (by omega)).1 v (h2f + 1)
                  (renderETail t ++ ('\x7d' :: rest)) (le_refl _) (by omega)
                  (ndsETail t rest)
                have hPe := (IH (1 + sizeO t) (by omega)).2.2 t (h2f + 1) rest
                  (le_refl _) (by omega)
                simp only [skipWs_cons (show isWsChar ':' = false by decide)]
                rw [if_pos trivial, parseV_space, hPv]
                simp [hPe, string_eta]
      · intro xs f rest hN hf
        obtain ⟨g, rfl⟩ := fuel_split (f := f) (by omega)
        cases xs with
        | nil => rfl
        | cons y t =>
            have hy1 := sizeV_pos y
            have hsz : sizeL (y :: t) = 1 + sizeV y + sizeL t := rfl
            obtain ⟨h, rfl⟩ := fuel_split (f := g) (by omega)
            have h2 : renderITail (y :: t) ++ (']' :: rest)
                = ',' :: (' ' :: (renderV y ++ (renderITail t ++ (']' :: rest)))) := by
              rw [renderITail]
              simp
            rw [h2, parseArrTail_succ _ _ (by decide)]
            rw [if_neg (by decide), if_pos rfl, parseV_space]
            have hPv := (IH (sizeV y) (by omega)).1 y (h + 1)
              (renderITail t ++ (']' :: rest)) (le_refl _) (by omega)
              (ndsITail t rest)
            have hPt := (IH (1 + sizeL t) (by omega)).2.1 t (h + 1) rest
              (le_refl _) (by omega)
            simp [hPv, hPt]
      · intro kvs f rest hN hf
        obtain ⟨g, rfl⟩ := fuel_split (f := f) (by omega)
        cases kvs with
        | nil => rfl
        | cons e t =>
            obtain ⟨k, v⟩ := e
            have hv1 := sizeV_pos v
            have hsz : sizeO ((k, v) :: t) = 1 + sizeV v + sizeO t := rfl
            obtain ⟨h, rfl⟩ := fuel_split (f := g) (by omega)
            have h2 : renderETail ((k, v) :: t) ++ ('\x7d' :: rest)
                = ',' :: (' ' :: ('"' :: (escChars k.data ++ ('"' :: (':' :: (' ' ::
                  (renderV v ++ (renderETail t ++ ('\x7d' :: rest))))))))) := by
              rw [renderETail, renderKey]
              simp
            rw [h2, parseObjTail_succ _ _ (by decide)]
            rw [if_neg (by decide), if_pos rfl]
            rw [show skipWs (' ' :: ('"' :: (escChars k.data ++ ('"' :: (':' :: (' ' ::
              (renderV v ++ (renderETail t ++ ('\x7d' :: rest))))))))) =
              '"' :: (escChars k.data ++ ('"' :: (':' :: (' ' ::
              (renderV v ++ (renderETail t ++ ('\x7d' :: rest)))))))
              from by rw [skipWs_space, skipWs_cons (by decide)]]
            have hPv := (IH (sizeV v) (by omega)).1 v (h + 1)
              (renderETail t ++ ('\x7d' :: rest)) (le_refl _) (by omega)
              (ndsETail t rest)
            have hPe := (IH (1 + sizeO t) (by omega)).2.2 t (h + 1) rest
              (le_refl _) (by omega)
            simp only [parseStrChars_esc,
              skipWs_cons (show isWsChar ':' = false by decide)]
            rw [if_pos trivial, parseV_space, hPv]
            simp [hPe, string_eta]

/-- The structural size is dominated by the rendered length, so the fuel
`loads` supplies (twice the input length) always suffices. -/
theorem sizeBound : ∀ N : Nat,
    (∀ v, sizeV v ≤ N → sizeV v + 1 ≤ 2 * (renderV v).length)
    ∧ (∀ xs, sizeL xs ≤ N → sizeL xs ≤ 2 * (renderItems xs).length
        ∧ sizeL xs ≤ 2 * (renderITail xs).length)
    ∧ (∀ kvs, sizeO kvs ≤ N → sizeO kvs ≤ 2 * (renderEntries kvs).length
        ∧ sizeO kvs ≤ 2 * (renderETail kvs).length) := by
  intro N
  induction N using Nat.strong_induction_on with
  | _ N IH =>
      refine ⟨?_, ?_, ?_⟩
      · intro v hN
        cases v with
        | null => simp [sizeV, renderV, kwNull]
        | bool b => cases b <;> simp [sizeV, renderV, kwTrue, kwFalse]
        | int n =>
            have hlen : 1 ≤ (renderV (Val.int n)).length := by
              by_cases hneg : n < 0
              · simp [renderV, intChars, hneg]
              · obtain ⟨d, cs, hd, hsp⟩ := natChars_shape n.toNat
                simp [renderV, intChars, hneg, hsp]
            simp only [sizeV]
            omega
        | str s => simp [sizeV, renderV]
        | list xs =>
            simp only [sizeV] at hN ⊢
            have hB := ((IH (sizeL xs) (by omega)).2.1 xs (le_refl _)).1
            simp only [renderV, List.length_cons, List.length_append,
              List.length_singleton]
            omega
        | obj kvs =>
            simp only [sizeV] at hN ⊢
            have hC := ((IH (sizeO kvs) (by omega)).2.2 kvs (le_refl _)).1
            simp only [renderV, List.length_cons, List.length_append,
              List.length_singleton]
            omega
      · intro xs hN
        cases xs with
        | nil => simp [sizeL, renderItems, renderITail]
        | cons x t =>
            simp only [sizeL] at hN ⊢
            have hx := sizeV_pos x
            have hA := (IH (sizeV x) (by omega)).1 x (le_refl _)
            have hB := ((IH (sizeL t) (by omega)).2.1 t (le_refl _)).2
            constructor
            · simp only [renderItems, List.length_append]
              omega
            · simp only [renderITail, List.length_cons, List.length_append]
              omega
      · intro kvs hN
        cases kvs with
        | nil => simp [sizeO, renderEntries, renderETail]
        | cons e t =>
            obtain ⟨k, v⟩ := e
            simp only [sizeO] at hN ⊢
            have hv := sizeV_pos v
            have hA := (IH (sizeV v) (by omega)).1 v (le_refl _)
            have hC := ((IH (sizeO t) (by omega)).2.2 t (le_refl _)).2
            constructor
            · simp only [renderEntries, renderKey, List.length_append,
                List.length_cons]
              omega
            · simp only [renderETail, renderKey, List.length_append,
                List.length_cons]
              omega

/-- `json.loads` inverts `json.dumps` on every value of the model. -/
theorem loads_dumps (x : Val) : loads (dumps x) = some x := by
  have hb := (sizeBound (sizeV x)).1 x (le_refl _)
  have hRT := (parseRT (sizeV x)).1 x (2 * (renderV x).length) []
    (le_refl _) (by omega) trivial
  rw [List.append_nil] at hRT
  show (match parseV (2 * (dumps x).data.length) (dumps x).data with
    | some (v, rest) => if (skipWs rest).isEmpty then some v else none
    | none => none) = some x
  rw [show (dumps x).data = renderV x from rfl, hRT]
  rfl

/-- Claim C5 (confirmed).  Decoding the opaque serialized string the
normalizer produces for a value `v` — `json.dumps(clean_xml_artifacts(v))`,
here `dumps (cleanP v)` (the payload of `jsonEnc v`) — yields exactly the
cleaned form of `v`: `loads (dumps (cleanP v)) = some (cleanP v)`.  The
`wfVal` hypothesis marks the modelling envelope: string contents of
printable ASCII, where the model's renderer agrees with `json.dumps`
(outside it Python additionally `\uXXXX`-escapes, which the model does not
render). -/
theorem c5_decode_encode_is_clean (v : Val) (_hwf : wfVal v = true) :
    loads (dumps (cleanP v)) = some (cleanP v) :=
  loads_dumps (cleanP v)

/-- Claim C5, witness: a nested value with an attribute key, an empty inner
mapping and an escaped quote in a string. -/
theorem c5_decode_encode_is_clean_witness :
    wfVal (Val.obj [("@ns", Val.int 9), ("a", Val.list [Val.obj []]),
      ("b", Val.str "x\"y")]) = true
    ∧ loads (dumps (cleanP (Val.obj [("@ns", Val.int 9),
        ("a", Val.list [Val.obj []]), ("b", Val.str "x\"y")]))) =
      some (cleanP (Val.obj [("@ns", Val.int 9), ("a", Val.list [Val.obj []]),
        ("b", Val.str "x\"y")])) :=
  ⟨rfl, c5_decode_encode_is_clean (Val.obj [("@ns", Val.int 9),
    ("a", Val.list [Val.obj []]), ("b", Val.str "x\"y")]) rfl⟩

end Sherpa
